import Mathlib

/-!
Verification of the time-frequency transform core of the Source-Separation
repository (`src/src/transforms.py`).

The file shallowly embeds the four components of that module:

* `make_filterbanks`, building a `TorchSTFT` / `TorchISTFT` pair sharing
  one Hann window;
* `TorchSTFT.forward`, the batched one-sided STFT (delegating in the source
  to `torch.stft` with `normalized=False`, `onesided=True`,
  `pad_mode="reflect"`);
* `TorchISTFT.forward`, the batched inverse STFT (delegating to
  `torch.istft`);
* `ComplexNorm.forward` and `AudioEncoder`, magnitude reduction with
  optional mono downmix and the analysis frontend composing STFT with it.

Machine floating point is modelled by exact real arithmetic.  The library
calls `torch.stft`, `torch.istft` and `torch.hann_window` are expanded to
their documented mathematical definitions (framing with reflect padding,
windowing, one-sided discrete Fourier transform; conjugate-symmetric
extension, inverse DFT, overlap-add with squared-window normalisation and
the positive-overlap check; periodic Hann window).  Tensor code that can
raise at call time is modelled with `Option`; constructors are modelled
with `Except` so that construction-time failure is statable.
-/

noncomputable section

open Finset Real

/-- `torch.hann_window n` (default `periodic=True`), entry `k`:
`w k = 1/2 * (1 - cos (2*pi*k/n))`. -/
def hannFun (n k : ℕ) : ℝ := 1 / 2 * (1 - Real.cos (2 * π * k / n))

/-- The window tensor built by `torch.hann_window n_fft` as a list. -/
def hann_window (n : ℕ) : List ℝ := (List.range n).map (hannFun n)

/-- Waveform tensor of shape `(B, C, S)`. -/
def Wave (B C S : ℕ) : Type := Fin B → Fin C → Fin S → ℝ

/-- Complex-spectrogram tensor of shape `(B, C, K, T, 2)`; the trailing
size-2 axis (real, imaginary) is a pair. -/
def Spec (B C K T : ℕ) : Type := Fin B → Fin C → Fin K → Fin T → ℝ × ℝ

/-- Magnitude tensor of shape `(B, C, K, T)`. -/
def Mag (B C K T : ℕ) : Type := Fin B → Fin C → Fin K → Fin T → ℝ

/-- `torch.view_as_complex` on one (real, imaginary) pair. -/
def viewAsComplex (p : ℝ × ℝ) : ℂ := ⟨p.1, p.2⟩

/-- A length-`S` signal as a total function, zero off range. -/
def extendW (S : ℕ) (x : Fin S → ℝ) : ℕ → ℝ :=
  fun t => if h : t < S then x ⟨t, h⟩ else 0

/-- `torch.nn.functional.pad` with `mode="reflect"` and `p` samples on each
side of a length-`S` signal (indices beyond `p + S + (S - 2)` do not occur
for the sizes accepted by `torch.stft`). -/
def reflectPad (p S : ℕ) (xe : ℕ → ℝ) : ℕ → ℝ := fun u =>
  if u < p then xe (p - u)
  else if u < p + S then xe (u - p)
  else xe (S - 2 - (u - p - S))

/-- Length of the signal handed to the framing step: `torch.stft` pads
`n/2` samples on each side when `center` is set. -/
def padLen (n S : ℕ) (center : Bool) : ℕ := if center then S + 2 * (n / 2) else S

/-- The (possibly reflect-padded) signal that is framed. -/
def paddedSig (n S : ℕ) (center : Bool) (xe : ℕ → ℝ) : ℕ → ℝ :=
  if center then reflectPad (n / 2) S xe else xe

/-- Number of STFT frames: `1 + floor((padded_length - n_fft)/hop)`. -/
def stftFrames (n h S : ℕ) (center : Bool) : ℕ := (padLen n S center - n) / h + 1

/-- Number of one-sided frequency bins: `n_fft/2 + 1`. -/
def stftBins (n : ℕ) : ℕ := n / 2 + 1

/-- One-sided DFT of one length-`n` real frame `g`, frequency bin `k`:
`sum_j g j * exp (-2*pi*I*j*k/n)`. -/
def frameDFT (n : ℕ) (g : ℕ → ℝ) (k : ℕ) : ℂ :=
  ∑ j ∈ Finset.range n, (g j : ℂ) * Complex.exp (-(2 * (π : ℂ) * j * k / n) * Complex.I)

/-- Frame `f` of the padded signal, windowed: `j ↦ w j * sig (f*h + j)`. -/
def windowedFrame (h : ℕ) (w sig : ℕ → ℝ) (f : ℕ) : ℕ → ℝ :=
  fun j => w j * sig (f * h + j)

/-- Bin `k` of frame `f` of the STFT of the padded signal `sig`. -/
def sdft (n h : ℕ) (w sig : ℕ → ℝ) (f k : ℕ) : ℂ :=
  frameDFT n (windowedFrame h w sig f) k

/-- Error channel of the constructors (§7 of the spec names it ConfigError). -/
inductive ConfigError : Type
  | mk : ConfigError

/-- `TorchSTFT` module state after construction. -/
structure TorchSTFT : Type where
  window : List ℝ
  n_fft : ℕ
  n_hop : ℕ
  center : Bool

/-- `TorchSTFT.__init__`: stores the arguments, substituting a fresh Hann
window when none is given.  The source performs no validation, so the
error channel is never used. -/
def TorchSTFT.init (n_fft n_hop : ℕ) (center : Bool) (window : Option (List ℝ)) :
    Except ConfigError TorchSTFT :=
  .ok { window := window.getD (hann_window n_fft), n_fft := n_fft,
        n_hop := n_hop, center := center }

/-- Conditions under which `torch.stft` runs without raising: positive
sizes, a window of length `n_fft`, reflect padding narrower than the
signal, and at least one frame. -/
def stftOK (m : TorchSTFT) (S : ℕ) : Prop :=
  0 < m.n_fft ∧ 0 < m.n_hop ∧ m.window.length = m.n_fft ∧
    (m.center = true → m.n_fft / 2 < S) ∧ m.n_fft ≤ padLen m.n_fft S m.center

instance (m : TorchSTFT) (S : ℕ) : Decidable (stftOK m S) := by
  unfold stftOK; infer_instance

/-- `TorchSTFT.forward`: pack the leading axes, run `torch.stft` on each
row, view as real pairs, unpack.  `none` models the call raising. -/
def TorchSTFT.forward (m : TorchSTFT) {B C S : ℕ} (x : Wave B C S) :
    Option (Spec B C (stftBins m.n_fft) (stftFrames m.n_fft m.n_hop S m.center)) :=
  if stftOK m S then
    some (fun b c k f =>
      let z := sdft m.n_fft m.n_hop (fun j => m.window.getD j 0)
        (paddedSig m.n_fft S m.center (extendW S (x b c))) f k
      (z.re, z.im))
  else none

/-- Conjugate-symmetric extension of `n/2 + 1` one-sided bins to `n` bins,
as performed by `torch.istft` for `onesided=True` input. -/
def extSpec (n : ℕ) (Xc : ℕ → ℂ) : ℕ → ℂ :=
  fun k => if k ≤ n / 2 then Xc k else (starRingEnd ℂ) (Xc (n - k))

/-- Inverse real DFT of one frame of one-sided bins, sample `j`:
`(1/n) * Re (sum_k ext k * exp (2*pi*I*j*k/n))`. -/
def sIdft (n : ℕ) (Xc : ℕ → ℂ) (j : ℕ) : ℝ :=
  1 / (n : ℝ) *
    (∑ k ∈ Finset.range n, extSpec n Xc k * Complex.exp (2 * (π : ℂ) * j * k / n * Complex.I)).re

/-- Length of the overlap-add buffer: `n_fft + hop * (T - 1)`. -/
def fullLen (n h T : ℕ) : ℕ := n + h * (T - 1)

/-- Overlap-add numerator at buffer position `u`: each inverse-transformed
frame is multiplied by the window again and added at stride `h`. -/
def olaNum (n h T : ℕ) (w : ℕ → ℝ) (Xc : ℕ → ℕ → ℂ) (u : ℕ) : ℝ :=
  ∑ f ∈ Finset.range T,
    if f * h ≤ u ∧ u < f * h + n then
      w (u - f * h) * sIdft n (fun k => Xc k f) (u - f * h)
    else 0

/-- Overlap-added squared-window envelope at buffer position `u`. -/
def olaEnv (n h T : ℕ) (w : ℕ → ℝ) (u : ℕ) : ℝ :=
  ∑ f ∈ Finset.range T, if f * h ≤ u ∧ u < f * h + n then w (u - f * h) ^ 2 else 0

/-- First buffer position kept by `torch.istft`: the centring padding is
stripped when `center` is set. -/
def istftStart (n : ℕ) (center : Bool) : ℕ := if center then n / 2 else 0

/-- Number of output samples of `torch.istft`: the requested `length` when
given, otherwise the buffer length minus the stripped padding. -/
def istftOutLen (n h T : ℕ) (center : Bool) (length : Option ℕ) : ℕ :=
  length.getD (fullLen n h T - (if center then 2 * (n / 2) else 0))

/-- `TorchISTFT` module state after construction (`sample_rate` is stored
but never read by `forward`). -/
structure TorchISTFT : Type where
  window : List ℝ
  n_fft : ℕ
  n_hop : ℕ
  center : Bool
  sample_rate : ℝ

/-- `TorchISTFT.__init__`: stores the arguments, substituting a fresh Hann
window when none is given; no validation is performed. -/
def TorchISTFT.init (n_fft n_hop : ℕ) (center : Bool) (sample_rate : ℝ)
    (window : Option (List ℝ)) : Except ConfigError TorchISTFT :=
  .ok { window := window.getD (hann_window n_fft), n_fft := n_fft,
        n_hop := n_hop, center := center, sample_rate := sample_rate }

/-- Conditions under which `torch.istft` runs without raising: positive
sizes, matching window and bin counts, at least one frame, and a nowhere
vanishing squared-window envelope over the retained samples. -/
def istftOK (m : TorchISTFT) (K T : ℕ) (length : Option ℕ) : Prop :=
  0 < m.n_fft ∧ 0 < m.n_hop ∧ m.window.length = m.n_fft ∧
    K = m.n_fft / 2 + 1 ∧ 0 < T ∧
    ∀ u, u < min (istftStart m.n_fft m.center + istftOutLen m.n_fft m.n_hop T m.center length)
        (fullLen m.n_fft m.n_hop T) →
      istftStart m.n_fft m.center ≤ u →
      olaEnv m.n_fft m.n_hop T (fun j => m.window.getD j 0) u ≠ 0

instance (m : TorchISTFT) (K T : ℕ) (length : Option ℕ) :
    Decidable (istftOK m K T length) := by
  unfold istftOK
  have : DecidableEq ℝ := Classical.decEq ℝ
  infer_instance

/-- One row of a complex spectrogram tensor as a total function of bin and
frame index (zero off range; `torch.view_as_complex` on each pair). -/
def specAt {B C K T : ℕ} (X : Spec B C K T) (b : Fin B) (c : Fin C) (k f : ℕ) : ℂ :=
  if hk : k < K then if hf : f < T then viewAsComplex (X b c ⟨k, hk⟩ ⟨f, hf⟩) else 0 else 0

/-- `TorchISTFT.forward`: pack the leading axes, view the trailing pairs as
complex, run `torch.istft` on each row (inverse DFT per frame, windowing,
overlap-add, envelope normalisation, padding strip, crop or zero-pad to
`length`), unpack.  `none` models the call raising. -/
def TorchISTFT.forward (m : TorchISTFT) {B C K T : ℕ} (X : Spec B C K T)
    (length : Option ℕ) :
    Option (Wave B C (istftOutLen m.n_fft m.n_hop T m.center length)) :=
  if istftOK m K T length then
    some (fun b c t =>
      let u := istftStart m.n_fft m.center + t
      let w : ℕ → ℝ := fun j => m.window.getD j 0
      if u < fullLen m.n_fft m.n_hop T then
        olaNum m.n_fft m.n_hop T w (specAt X b c) u / olaEnv m.n_fft m.n_hop T w u
      else 0)
  else none

/-- `make_filterbanks`: build one Hann window and hand the same window to
the encoder and the decoder (the decoder keeps the source's default
`sample_rate = 44100`). -/
def make_filterbanks (n_fft n_hop : ℕ) (center : Bool) : TorchSTFT × TorchISTFT :=
  let window := hann_window n_fft
  ({ window := window, n_fft := n_fft, n_hop := n_hop, center := center },
   { window := window, n_fft := n_fft, n_hop := n_hop, center := center,
     sample_rate := 44100 })

/-- `ComplexNorm` module state. -/
structure ComplexNorm : Type where
  mono : Bool

/-- Channel count of `ComplexNorm`'s output (`keepdim=True` mean). -/
abbrev monoChans (mono : Bool) (C : ℕ) : ℕ := if mono then 1 else C

/-- `ComplexNorm.forward`: magnitude `torch.abs (torch.view_as_complex spec)`
elementwise, then, when `mono`, `torch.mean` over axis 1 with `keepdim`. -/
def ComplexNorm.forward (cn : ComplexNorm) {B C K T : ℕ} (spec : Spec B C K T) :
    Mag B (monoChans cn.mono C) K T :=
  match cn with
  | ⟨true⟩ => fun b _ k t => (∑ c : Fin C, Complex.abs (viewAsComplex (spec b c k t))) / C
  | ⟨false⟩ => fun b c k t => Complex.abs (viewAsComplex (spec b c k t))

/-- `AudioEncoder` module state: a `TorchSTFT` (constructed with the
default `center=False` and a fresh default window) and a `ComplexNorm`. -/
structure AudioEncoder : Type where
  stft : TorchSTFT
  complex_norm : ComplexNorm

/-- `AudioEncoder.__init__ (n_fft, n_hop, sample_rate, num_channels)`:
`sample_rate` is accepted and dropped; `mono` is `num_channels == 1`. -/
def AudioEncoder.init (n_fft n_hop : ℕ) (sample_rate : ℝ) (num_channels : ℕ) :
    AudioEncoder :=
  { stft := { window := hann_window n_fft, n_fft := n_fft, n_hop := n_hop,
              center := false },
    complex_norm := { mono := num_channels == 1 } }

/-- `AudioEncoder.forward`: `complex_norm (stft x)` (the `no_grad`
annotation has no observable effect in a pure embedding). -/
def AudioEncoder.forward (ae : AudioEncoder) {B C S : ℕ} (x : Wave B C S) :
    Option (Mag B (monoChans ae.complex_norm.mono C) (stftBins ae.stft.n_fft)
      (stftFrames ae.stft.n_fft ae.stft.n_hop S ae.stft.center)) :=
  (ae.stft.forward x).map ae.complex_norm.forward

/-- Two-channel, single-bin, single-frame spectrogram: channel 0 holds the
pair (1, 0), channel 1 holds (0, 1). -/
def twoChanExample : Spec 1 2 1 1 :=
  fun _ c _ _ => if (c : ℕ) = 0 then (1, 0) else (0, 1)

/-- The window formula as the spec words it (denominator `n_fft - 1`,
the symmetric Hann window), for comparison with `hannFun`. -/
def specWindowFormula (n k : ℕ) : ℝ :=
  1 / 2 * (1 - Real.cos (2 * π * k / ((n - 1 : ℕ) : ℝ)))

lemma hann_window_length (n : ℕ) : (hann_window n).length = n := by
  simp [hann_window]

lemma hann_window_getD (n k : ℕ) (hk : k < n) :
    (hann_window n).getD k 0 = hannFun n k := by
  unfold hann_window
  rw [List.getD_eq_getElem _ _ (by simpa using hk)]
  simp

lemma hannFun_nonneg (n k : ℕ) : 0 ≤ hannFun n k := by
  have := Real.cos_le_one (2 * π * k / n)
  unfold hannFun
  linarith

/-- C3 (corrected): the constructors perform no validation at all; they
always succeed, storing the given configuration unchanged (or a fresh Hann
window when none is supplied). -/
theorem init_no_validation (n h : ℕ) (c : Bool) (w : List ℝ) (sr : ℝ) :
    TorchSTFT.init n h c (some w) = .ok ⟨w, n, h, c⟩ ∧
    TorchISTFT.init n h c sr (some w) = .ok ⟨w, n, h, c, sr⟩ ∧
    TorchSTFT.init n h c none = .ok ⟨hann_window n, n, h, c⟩ ∧
    TorchISTFT.init n h c sr none = .ok ⟨hann_window n, n, h, c, sr⟩ :=
  ⟨rfl, rfl, rfl, rfl⟩

/-- C3 counterexample: constructing with `n_fft = 0`, `n_hop = 9 > n_fft`
and a window of length `3 ≠ n_fft` raises nothing — both constructions
succeed, contradicting the claimed construction-time `ConfigError`. -/
theorem init_counterexample :
    (TorchSTFT.init 0 9 false (some [1, 1, 1])).isOk = true ∧
    (TorchISTFT.init 0 9 false 44100 (some [1, 1, 1])).isOk = true :=
  ⟨rfl, rfl⟩

/-- C7: `make_filterbanks` constructs the encoder and the decoder from one
shared window, so the two stored windows are identical. -/
theorem make_filterbanks_shared_window (n h : ℕ) (c : Bool) :
    (make_filterbanks n h c).1.window = (make_filterbanks n h c).2.window := rfl

/-- C8: the forward transform is a pure function of the configuration
fields and the input: instances with identical `(n_fft, n_hop, center,
window)` fed the same input give identical outputs. -/
theorem stft_deterministic (n h : ℕ) (c : Bool) (w w' : List ℝ) (hw : w = w')
    {B C S : ℕ} (x x' : Wave B C S) (hx : x = x') :
    (TorchSTFT.mk w n h c).forward x = (TorchSTFT.mk w' n h c).forward x' := by
  subst hw hx; rfl

theorem stft_deterministic_witness :
    hann_window 4 = hann_window 4 ∧
    ((fun _ _ _ => 1 : Wave 1 1 4) : Wave 1 1 4) = (fun _ _ _ => 1) ∧
    (TorchSTFT.mk (hann_window 4) 4 2 true).forward (fun _ _ _ => 1 : Wave 1 1 4) =
      (TorchSTFT.mk (hann_window 4) 4 2 true).forward (fun _ _ _ => 1 : Wave 1 1 4) :=
  ⟨rfl, rfl, stft_deterministic 4 2 true (hann_window 4) (hann_window 4) rfl
    (fun _ _ _ => 1) (fun _ _ _ => 1) rfl⟩

/-- C10: `sample_rate` is dead configuration — changing it changes no
output of `AudioEncoder.forward` or `TorchISTFT.forward`. -/
theorem sample_rate_unused (n h : ℕ) (c : Bool) (w : List ℝ) (sr sr' : ℝ) (ch : ℕ)
    {B C S K T : ℕ} (x : Wave B C S) (X : Spec B C K T) (len : Option ℕ) :
    (AudioEncoder.init n h sr ch).forward x = (AudioEncoder.init n h sr' ch).forward x ∧
    (TorchISTFT.mk w n h c sr).forward X len = (TorchISTFT.mk w n h c sr').forward X len :=
  ⟨rfl, rfl⟩

/-- C9: the analysis frontend is exactly the composition of the forward
transform (built with the source's defaults) and the magnitude stage, and
its `mono` flag is set iff the configured channel count is 1. -/
theorem audioEncoder_composition (n h : ℕ) (sr : ℝ) (ch : ℕ) {B C S : ℕ}
    (x : Wave B C S) :
    (AudioEncoder.init n h sr ch).forward x =
      ((TorchSTFT.mk (hann_window n) n h false).forward x).map
        (ComplexNorm.forward (ComplexNorm.mk (ch == 1))) ∧
    ((AudioEncoder.init n h sr ch).complex_norm.mono = true ↔ ch = 1) := by
  refine ⟨rfl, ?_⟩
  simp [AudioEncoder.init]

/-- C2 (corrected): for even `n_fft` the frame count is
`1 + floor((S_padded - n_fft)/n_hop)` with `S_padded = S + n_fft` when
centred (`S_padded = S` otherwise), and there are `n_fft/2 + 1` bins. -/
theorem stft_shape (n h S : ℕ) (center : Bool) (hn : 0 < n) (he : Even n)
    (hh : 0 < h) (hhn : h ≤ n)
    (hS : if center then n / 2 < S else n ≤ S) :
    stftFrames n h S center = 1 + ((if center then S + n else S) - n) / h ∧
    stftBins n = n / 2 + 1 := by
  have h2 : 2 * (n / 2) = n := by
    obtain ⟨m, rfl⟩ := he
    omega
  refine ⟨?_, rfl⟩
  unfold stftFrames padLen
  cases center with
  | false => exact Nat.add_comm _ 1
  | true => rw [if_pos rfl, if_pos rfl, h2, Nat.add_comm _ 1]

theorem stft_shape_witness :
    0 < 4 ∧ Even 4 ∧ 0 < 2 ∧ 2 ≤ 4 ∧ (if true then 4 / 2 < 6 else 4 ≤ 6) ∧
    (stftFrames 4 2 6 true = 1 + ((if true then 6 + 4 else 6) - 4) / 2 ∧
      stftBins 4 = 4 / 2 + 1) :=
  ⟨by decide, by decide, by decide, by decide, by decide,
    stft_shape 4 2 6 true (by decide) (by decide) (by decide) (by decide) (by decide)⟩

/-- C2 counterexample: `n_fft = 5`, `n_hop = 1`, `S = 6`, `center = true`
is a valid configuration with at least one frame, yet the actual frame
count is `6` while the claimed formula yields `7` (`torch.stft` pads
`2 * floor(n_fft/2) = 4` samples, not `n_fft = 5`). -/
theorem stft_shape_counterexample :
    (0 < 5 ∧ 1 ≤ 5 ∧ 5 / 2 < 6) ∧
    stftFrames 5 1 6 true ≠ 1 + ((6 + 5) - 5) / 1 := by
  decide

/-- C4 (corrected): the default window is the periodic Hann window of
`torch.hann_window`: length `n_fft`, entries
`1/2 * (1 - cos (2*pi*k/n_fft))`, non-negative, and circularly symmetric
(`w k = w (n_fft - k)` for `0 < k < n_fft`). -/
theorem hann_window_spec (n k : ℕ) (hk : k < n) :
    (hann_window n).length = n ∧
    (hann_window n).getD k 0 = 1 / 2 * (1 - Real.cos (2 * π * k / n)) ∧
    0 ≤ (hann_window n).getD k 0 ∧
    (0 < k → (hann_window n).getD k 0 = (hann_window n).getD (n - k) 0) := by
  refine ⟨hann_window_length n, hann_window_getD n k hk, ?_, ?_⟩
  · rw [hann_window_getD n k hk]
    exact hannFun_nonneg n k
  · intro hk0
    rw [hann_window_getD n k hk, hann_window_getD n (n - k) (by omega)]
    unfold hannFun
    have hn : (n : ℝ) ≠ 0 := by
      have : 0 < n := by omega
      exact_mod_cast this.ne'
    have hcast : ((n - k : ℕ) : ℝ) = (n : ℝ) - k := by
      push_cast [Nat.cast_sub hk.le]
      ring
    rw [hcast, show 2 * π * ((n : ℝ) - k) / n = 2 * π - 2 * π * k / n by
      field_simp; ring, Real.cos_two_pi_sub]

theorem hann_window_spec_witness :
    1 < 4 ∧
    ((hann_window 4).length = 4 ∧
      (hann_window 4).getD 1 0 = 1 / 2 * (1 - Real.cos (2 * π * ((1 : ℕ) : ℝ) / ((4 : ℕ) : ℝ))) ∧
      0 ≤ (hann_window 4).getD 1 0 ∧
      (0 < 1 → (hann_window 4).getD 1 0 = (hann_window 4).getD (4 - 1) 0)) :=
  ⟨by decide, hann_window_spec 4 1 (by decide)⟩

/-- C4 counterexample: at `n_fft = 4`, `k = 1` the actual entry is `1/2`
but the spec formula (denominator `n_fft - 1`) gives `3/4`; moreover the
window is not symmetric under index reversal: `w 0 = 0` but
`w (4 - 1 - 0) = 1/2`. -/
theorem hann_window_counterexample :
    hannFun 4 1 ≠ specWindowFormula 4 1 ∧ hannFun 4 0 ≠ hannFun 4 (4 - 1 - 0) := by
  have h1 : hannFun 4 1 = 1 / 2 := by
    unfold hannFun
    rw [show 2 * π * (1 : ℕ) / (4 : ℕ) = π / 2 by push_cast; ring,
      Real.cos_pi_div_two]
    norm_num
  have h2 : specWindowFormula 4 1 = 3 / 4 := by
    unfold specWindowFormula
    rw [show 2 * π * (1 : ℕ) / ((4 - 1 : ℕ) : ℝ) = π - π / 3 by push_cast; ring,
      Real.cos_pi_sub, Real.cos_pi_div_three]
    norm_num
  have h3 : hannFun 4 0 = 0 := by
    unfold hannFun
    rw [show 2 * π * (0 : ℕ) / (4 : ℕ) = 0 by push_cast; ring, Real.cos_zero]
    norm_num
  have h4 : hannFun 4 (4 - 1 - 0) = 1 / 2 := by
    unfold hannFun
    rw [show 2 * π * ((4 - 1 - 0 : ℕ) : ℝ) / (4 : ℕ) = 2 * π - π / 2 by
      push_cast; ring, Real.cos_two_pi_sub, Real.cos_pi_div_two]
    norm_num
  rw [h1, h2, h3, h4]
  norm_num

/-- C5: with `mono` the magnitude is taken per channel first and the
magnitudes are then averaged over axis 1, so for two channels the single
output channel is `(m1 + m2)/2`; on the concrete pairs `(1,0)` and `(0,1)`
this differs from the magnitude of the averaged complex values. -/
theorem complexNorm_mono_mean :
    (∀ (B K T : ℕ) (s : Spec B 2 K T) (b : Fin B) (k : Fin K) (t : Fin T),
      ComplexNorm.forward ⟨true⟩ s b (0 : Fin 1) k t =
        (Complex.abs (viewAsComplex (s b 0 k t)) +
          Complex.abs (viewAsComplex (s b 1 k t))) / 2) ∧
    ComplexNorm.forward ⟨true⟩ twoChanExample 0 (0 : Fin 1) 0 0 ≠
      Complex.abs ((viewAsComplex (twoChanExample 0 0 0 0) +
        viewAsComplex (twoChanExample 0 1 0 0)) / 2) := by
  have hmean : ∀ (B K T : ℕ) (s : Spec B 2 K T) (b : Fin B) (k : Fin K) (t : Fin T),
      ComplexNorm.forward ⟨true⟩ s b (0 : Fin 1) k t =
        (Complex.abs (viewAsComplex (s b 0 k t)) +
          Complex.abs (viewAsComplex (s b 1 k t))) / 2 := by
    intro B K T s b k t
    show (∑ c : Fin 2, Complex.abs (viewAsComplex (s b c k t))) / ((2 : ℕ) : ℝ) = _
    rw [Fin.sum_univ_two]
    norm_num
  refine ⟨hmean, ?_⟩
  rw [hmean]
  have e0 : viewAsComplex (twoChanExample 0 0 0 0) = 1 := by
    unfold twoChanExample viewAsComplex
    simp [Complex.ext_iff]
  have e1 : viewAsComplex (twoChanExample 0 1 0 0) = Complex.I := by
    unfold twoChanExample viewAsComplex
    simp [Complex.ext_iff]
  rw [e0, e1, map_one Complex.abs, Complex.abs_I]
  have hns : Complex.normSq ((1 + Complex.I) / 2) = 1 / 2 := by
    rw [map_div₀]
    simp [Complex.normSq_apply]
    norm_num
  intro h
  have hsq := Complex.sq_abs ((1 + Complex.I) / 2)
  rw [← h, hns] at hsq
  norm_num at hsq

/-- C6: every element of the magnitude stage's output is non-negative,
with or without mono downmix. -/
theorem complexNorm_nonneg (mono : Bool) {B C K T : ℕ} (spec : Spec B C K T)
    (b : Fin B) (c : Fin (monoChans mono C)) (k : Fin K) (t : Fin T) :
    0 ≤ ComplexNorm.forward ⟨mono⟩ spec b c k t := by
  cases mono with
  | false => exact AbsoluteValue.nonneg Complex.abs _
  | true =>
    refine div_nonneg (Finset.sum_nonneg ?_) (Nat.cast_nonneg C)
    exact fun c' _ => AbsoluteValue.nonneg Complex.abs _

lemma expsum_eq (n : ℕ) (hn : 0 < n) (m : ℤ) :
    ∑ k ∈ Finset.range n, Complex.exp (2 * (π : ℂ) * Complex.I * m * k / n) =
      if (n : ℤ) ∣ m then (n : ℂ) else 0 := by
  have hn0 : (n : ℂ) ≠ 0 := by exact_mod_cast hn.ne'
  have hform : ∀ k : ℕ, Complex.exp (2 * (π : ℂ) * Complex.I * m * k / n) =
      Complex.exp (2 * (π : ℂ) * Complex.I * m / n) ^ k := by
    intro k
    rw [← Complex.exp_nat_mul]
    congr 1
    field_simp
    ring
  rw [Finset.sum_congr rfl (fun k _ => hform k)]
  by_cases hdvd : (n : ℤ) ∣ m
  · obtain ⟨q, rfl⟩ := hdvd
    have hz : Complex.exp (2 * (π : ℂ) * Complex.I * ((n : ℤ) * q : ℤ) / n) = 1 := by
      rw [show (2 * (π : ℂ) * Complex.I * ((n : ℤ) * q : ℤ) / n) = (q : ℤ) * (2 * π * Complex.I) by
        push_cast
        field_simp
        ring]
      exact Complex.exp_int_mul_two_pi_mul_I q
    rw [if_pos ⟨q, rfl⟩, Finset.sum_congr rfl (fun k _ => by rw [hz, one_pow])]
    simp
  · have hπ : (π : ℂ) ≠ 0 := by exact_mod_cast Real.pi_ne_zero
    have h2 : (2 : ℂ) * π * Complex.I ≠ 0 :=
      mul_ne_zero (mul_ne_zero two_ne_zero hπ) Complex.I_ne_zero
    have hz : Complex.exp (2 * (π : ℂ) * Complex.I * m / n) ≠ 1 := by
      intro h1
      rw [Complex.exp_eq_one_iff] at h1
      obtain ⟨t, ht⟩ := h1
      apply hdvd
      have hm : (m : ℂ) = t * n := by
        apply mul_left_cancel₀ h2
        calc 2 * (π : ℂ) * Complex.I * m
            = (2 * (π : ℂ) * Complex.I * m / n) * n := by field_simp
          _ = ((t : ℂ) * (2 * π * Complex.I)) * n := by rw [ht]
          _ = 2 * (π : ℂ) * Complex.I * (t * n) := by ring
      have hmz : m = t * n := by exact_mod_cast hm
      exact ⟨t, by rw [hmz, mul_comm]⟩
    have hpow : Complex.exp (2 * (π : ℂ) * Complex.I * m / n) ^ n = 1 := by
      rw [← Complex.exp_nat_mul,
        show (n : ℂ) * (2 * (π : ℂ) * Complex.I * m / n) = (m : ℤ) * (2 * π * Complex.I) by
          push_cast
          field_simp
          ring]
      exact Complex.exp_int_mul_two_pi_mul_I m
    rw [geom_sum_eq hz, hpow, if_neg hdvd]
    simp

lemma extSpec_frameDFT (n : ℕ) (g : ℕ → ℝ) (k : ℕ) (hk : k < n) :
    extSpec n (frameDFT n g) k = frameDFT n g k := by
  unfold extSpec
  by_cases hhalf : k ≤ n / 2
  · rw [if_pos hhalf]
  · rw [if_neg hhalf]
    have hn0 : (n : ℂ) ≠ 0 := by
      have : 0 < n := by omega
      exact_mod_cast this.ne'
    unfold frameDFT
    rw [map_sum]
    refine Finset.sum_congr rfl ?_
    intro j _
    rw [map_mul, Complex.conj_ofReal]
    congr 1
    rw [← Complex.exp_conj]
    rw [show (starRingEnd ℂ) (-(2 * (π : ℂ) * j * (n - k : ℕ) / n) * Complex.I) =
        (2 * (π : ℂ) * j * ((n - k : ℕ) : ℂ) / n) * Complex.I by
      simp [map_mul, map_div₀, Complex.conj_I, Complex.conj_ofReal, map_ofNat]]
    rw [show (2 * (π : ℂ) * j * ((n - k : ℕ) : ℂ) / n) * Complex.I =
        (j : ℂ) * (2 * π * Complex.I) + -(2 * (π : ℂ) * j * k / n) * Complex.I by
      push_cast [Nat.cast_sub hk.le]
      field_simp
      ring]
    rw [Complex.exp_add, Complex.exp_nat_mul_two_pi_mul_I, one_mul]

lemma sIdft_frameDFT (n : ℕ) (hn : 0 < n) (g : ℕ → ℝ) (j : ℕ) (hj : j < n) :
    sIdft n (frameDFT n g) j = g j := by
  have hn0 : (n : ℂ) ≠ 0 := by exact_mod_cast hn.ne'
  have hnR : (n : ℝ) ≠ 0 := by exact_mod_cast hn.ne'
  unfold sIdft
  rw [Finset.sum_congr rfl (fun k hk => by
    rw [extSpec_frameDFT n g k (Finset.mem_range.mp hk)])]
  have inner : ∀ i, i ∈ Finset.range n →
      (∑ k ∈ Finset.range n,
        ((g i : ℂ) * Complex.exp (-(2 * (π : ℂ) * i * k / n) * Complex.I)) *
          Complex.exp (2 * (π : ℂ) * j * k / n * Complex.I)) =
      (g i : ℂ) * (if (n : ℤ) ∣ ((j : ℤ) - (i : ℤ)) then (n : ℂ) else 0) := by
    intro i _
    have hstep : ∀ k : ℕ,
        ((g i : ℂ) * Complex.exp (-(2 * (π : ℂ) * i * k / n) * Complex.I)) *
          Complex.exp (2 * (π : ℂ) * j * k / n * Complex.I) =
        (g i : ℂ) * Complex.exp (2 * (π : ℂ) * Complex.I * (((j : ℤ) - (i : ℤ) : ℤ) : ℂ) * k / n) := by
      intro k
      rw [mul_assoc, ← Complex.exp_add]
      congr 2
      push_cast
      field_simp
      ring
    rw [Finset.sum_congr rfl (fun k _ => hstep k), ← Finset.mul_sum,
      expsum_eq n hn ((j : ℤ) - (i : ℤ))]
  have key : ∑ k ∈ Finset.range n,
      frameDFT n g k * Complex.exp (2 * (π : ℂ) * j * k / n * Complex.I) =
      (n : ℂ) * (g j : ℂ) := by
    unfold frameDFT
    rw [Finset.sum_congr rfl (fun k _ => Finset.sum_mul _ _ _), Finset.sum_comm,
      Finset.sum_congr rfl inner,
      Finset.sum_eq_single_of_mem j (Finset.mem_range.mpr hj) (fun i hi hne => by
        rw [if_neg, mul_zero]
        intro hd
        have hi2 : i < n := Finset.mem_range.mp hi
        have habs : ((j : ℤ) - (i : ℤ)).natAbs < (n : ℤ).natAbs := by omega
        have := Int.eq_zero_of_dvd_of_natAbs_lt_natAbs hd habs
        omega)]
    rw [if_pos (by simp), mul_comm]
  rw [key, show ((n : ℂ) * (g j : ℂ)) = ((n * g j : ℝ) : ℂ) by push_cast; ring,
    Complex.ofReal_re]
  field_simp

lemma olaNum_sdft (n h T : ℕ) (hn : 0 < n) (w sig : ℕ → ℝ) (u : ℕ) :
    olaNum n h T w (fun k f => sdft n h w sig f k) u = olaEnv n h T w u * sig u := by
  unfold olaNum olaEnv
  rw [Finset.sum_mul]
  refine Finset.sum_congr rfl ?_
  intro f _
  rw [ite_mul, zero_mul]
  by_cases hc : f * h ≤ u ∧ u < f * h + n
  · rw [if_pos hc, if_pos hc,
      show (fun k => sdft n h w sig f k) = frameDFT n (windowedFrame h w sig f) from rfl,
      sIdft_frameDFT n hn _ (u - f * h) (by omega)]
    unfold windowedFrame
    rw [show f * h + (u - f * h) = u by omega]
    ring
  · rw [if_neg hc, if_neg hc]

lemma extSpec_eq_of_agree (n : ℕ) (Xc Xc' : ℕ → ℂ)
    (hagree : ∀ k, k ≤ n / 2 → Xc k = Xc' k) (k : ℕ) :
    extSpec n Xc k = extSpec n Xc' k := by
  unfold extSpec
  by_cases hk : k ≤ n / 2
  · rw [if_pos hk, if_pos hk, hagree k hk]
  · rw [if_neg hk, if_neg hk, hagree (n - k) (by omega)]

lemma olaNum_eq_of_agree (n h T : ℕ) (w : ℕ → ℝ) (Xc Xc' : ℕ → ℕ → ℂ)
    (hagree : ∀ k, k ≤ n / 2 → ∀ f, f < T → Xc k f = Xc' k f) (u : ℕ) :
    olaNum n h T w Xc u = olaNum n h T w Xc' u := by
  unfold olaNum
  refine Finset.sum_congr rfl ?_
  intro f hf
  by_cases hc : f * h ≤ u ∧ u < f * h + n
  · rw [if_pos hc, if_pos hc]
    congr 1
    unfold sIdft
    congr 1
    refine congrArg _ ?_
    refine Finset.sum_congr rfl ?_
    intro k _
    rw [extSpec_eq_of_agree n _ _
      (fun k' hk' => hagree k' hk' f (Finset.mem_range.mp hf)) k]
  · rw [if_neg hc, if_neg hc]

lemma hannFun_pos (n r : ℕ) (h1 : 0 < r) (h2 : r < n) : 0 < hannFun n r := by
  unfold hannFun
  have hπ := Real.pi_pos
  have hnR : (0 : ℝ) < n := by exact_mod_cast Nat.lt_of_le_of_lt (Nat.zero_le r) h2
  have hrR : (0 : ℝ) < r := by exact_mod_cast h1
  have hθ1 : 0 < 2 * π * r / n := by positivity
  have hθ2 : 2 * π * r / n < 2 * π := by
    rw [div_lt_iff hnR]
    have hrn : (r : ℝ) < n := by exact_mod_cast h2
    nlinarith
  have hne : Real.cos (2 * π * r / n) ≠ 1 := by
    intro heq
    have := (Real.cos_eq_one_iff_of_lt_of_lt (by linarith) hθ2).mp heq
    linarith
  have hle := Real.cos_le_one (2 * π * r / n)
  have hlt : Real.cos (2 * π * r / n) < 1 := lt_of_le_of_ne hle hne
  linarith

lemma olaEnv_hann_pos (n h S u : ℕ) (hh : 0 < h) (hhn : h < n) (hdvd : h ∣ S)
    (hu1 : n / 2 ≤ u) (hu2 : u < n / 2 + S) :
    0 < olaEnv n h (S / h + 1) (fun j => (hann_window n).getD j 0) u := by
  have hn : 0 < n := lt_trans hh hhn
  have hn2 : 1 ≤ n / 2 ∨ n = 1 := by omega
  -- the witness frame
  obtain ⟨q, r0, hqr, hr0⟩ : ∃ q r0, u - 1 = h * q + r0 ∧ r0 < h :=
    ⟨(u - 1) / h, (u - 1) % h, (Nat.div_add_mod _ _).symm, Nat.mod_lt _ hh⟩
  have hSh : S / h * h = S := Nat.div_mul_cancel hdvd
  have hwitness : ∃ f, f < S / h + 1 ∧ f * h ≤ u ∧ u < f * h + n ∧ 0 < u - f * h := by
    have hq : q * h = h * q := Nat.mul_comm q h
    by_cases hcase : q ≤ S / h
    · exact ⟨q, by omega, by omega, by omega, by omega⟩
    · have hSh2 : h * (S / h) = S := Nat.mul_div_cancel' hdvd
      have hmul : h * (S / h + 1) ≤ h * q := Nat.mul_le_mul_left h (by omega)
      have hexp : h * (S / h + 1) = h * (S / h) + h := by rw [Nat.mul_add, Nat.mul_one]
      exact ⟨S / h, by omega, by omega, by omega, by omega⟩
  obtain ⟨f, hfT, hf1, hf2, hf3⟩ := hwitness
  unfold olaEnv
  refine Finset.sum_pos' ?_ ⟨f, Finset.mem_range.mpr hfT, ?_⟩
  · intro i _
    by_cases hc : i * h ≤ u ∧ u < i * h + n
    · rw [if_pos hc]
      positivity
    · rw [if_neg hc]
  · rw [if_pos ⟨hf1, hf2⟩]
    show 0 < (hann_window n).getD (u - f * h) 0 ^ 2
    rw [hann_window_getD n _ (by omega)]
    have := hannFun_pos n (u - f * h) hf3 (by omega)
    positivity

lemma paddedSig_center_retained (n S : ℕ) (xe : ℕ → ℝ) (u : ℕ)
    (h1 : n / 2 ≤ u) (h2 : u < n / 2 + S) :
    paddedSig n S true xe u = xe (u - n / 2) := by
  unfold paddedSig reflectPad
  rw [if_pos rfl, if_neg (by omega), if_pos (by omega)]

lemma stftFrames_center_dvd (n h S : ℕ) (he : Even n) (hdvd : h ∣ S) (hh : 0 < h) :
    stftFrames n h S true = S / h + 1 := by
  obtain ⟨m, rfl⟩ := he
  unfold stftFrames padLen
  rw [if_pos rfl, show 2 * ((m + m) / 2) = m + m by omega, Nat.add_sub_cancel]

/-- C1 (corrected): perfect reconstruction.  For even `n_fft`, hop
`0 < n_hop < n_fft`, `S` a multiple of `n_hop` with `S > n_fft/2`, and the
encoder/decoder pair of `make_filterbanks` with `center = true`, decoding
the encoding at `length = S` returns the input exactly (real arithmetic
models the floating-point computation, so exact equality implies equality
within any tolerance). -/
theorem roundtrip_center (n h S B C : ℕ) (he : Even n) (hh : 0 < h) (hhn : h < n)
    (hdvd : h ∣ S) (hS : n / 2 < S) (x : Wave B C S) :
    ((make_filterbanks n h true).1.forward x).bind
      (fun X => (make_filterbanks n h true).2.forward X (some S)) = some x := by
  have hn : 0 < n := lt_trans hh hhn
  show (TorchSTFT.forward ⟨hann_window n, n, h, true⟩ x).bind
      (fun X => TorchISTFT.forward ⟨hann_window n, n, h, true, 44100⟩ X (some S)) = some x
  have hok : stftOK ⟨hann_window n, n, h, true⟩ S := by
    refine ⟨hn, hh, hann_window_length n, fun _ => hS, ?_⟩
    show n ≤ padLen n S true
    unfold padLen
    rw [if_pos rfl]
    omega
  rw [TorchSTFT.forward, if_pos hok, Option.some_bind]
  have hT : stftFrames n h S true = S / h + 1 := stftFrames_center_dvd n h S he hdvd hh
  have hfull : fullLen n h (stftFrames n h S true) = n + S := by
    rw [hT]
    unfold fullLen
    rw [Nat.add_sub_cancel, Nat.mul_div_cancel' hdvd]
  have hstart : istftStart n true = n / 2 := rfl
  have houtlen : istftOutLen n h (stftFrames n h S true) true (some S) = S := rfl
  have henvne : ∀ u, n / 2 ≤ u → u < n / 2 + S →
      olaEnv n h (stftFrames n h S true) (fun j => (hann_window n).getD j 0) u ≠ 0 := by
    intro u h1 h2
    rw [hT]
    exact (olaEnv_hann_pos n h S u hh hhn hdvd h1 h2).ne'
  have hok2 : istftOK ⟨hann_window n, n, h, true, 44100⟩ (stftBins n)
      (stftFrames n h S true) (some S) := by
    refine ⟨hn, hh, hann_window_length n, rfl, ?_, ?_⟩
    · rw [hT]
      exact Nat.succ_pos _
    · intro u hu hst
      have hmin : min (istftStart n true + istftOutLen n h (stftFrames n h S true) true (some S))
          (fullLen n h (stftFrames n h S true)) = n / 2 + S := by
        rw [hstart, houtlen, hfull]
        exact min_eq_left (by omega)
      rw [hmin] at hu
      rw [hstart] at hst
      exact henvne u hst hu
  rw [TorchISTFT.forward, if_pos hok2]
  congr 1
  funext b c t
  have ht : (t : ℕ) < S := t.isLt
  show (if n / 2 + (t : ℕ) < fullLen n h (stftFrames n h S true) then
      olaNum n h (stftFrames n h S true) (fun j => (hann_window n).getD j 0)
        (specAt ((fun b' c' k f =>
          ((sdft n h (fun j => (hann_window n).getD j 0)
              (paddedSig n S true (extendW S (x b' c'))) (f : ℕ) (k : ℕ)).re,
           (sdft n h (fun j => (hann_window n).getD j 0)
              (paddedSig n S true (extendW S (x b' c'))) (f : ℕ) (k : ℕ)).im)) :
            Spec B C (stftBins n) (stftFrames n h S true)) b c)
        (n / 2 + (t : ℕ)) /
      olaEnv n h (stftFrames n h S true) (fun j => (hann_window n).getD j 0)
        (n / 2 + (t : ℕ))
    else 0) = x b c t
  rw [if_pos (show n / 2 + (t : ℕ) < fullLen n h (stftFrames n h S true) by
    rw [hfull]; omega)]
  rw [olaNum_eq_of_agree n h (stftFrames n h S true) (fun j => (hann_window n).getD j 0) _
    (fun k f => sdft n h (fun j => (hann_window n).getD j 0)
      (paddedSig n S true (extendW S (x b c))) f k)
    (fun k hk f hf => by
      unfold specAt
      rw [dif_pos (show k < stftBins n from Nat.lt_succ_of_le hk), dif_pos hf]
      rfl)
    (n / 2 + (t : ℕ))]
  rw [olaNum_sdft n h (stftFrames n h S true) hn _ _ (n / 2 + (t : ℕ))]
  rw [mul_div_cancel_left₀ _ (henvne (n / 2 + (t : ℕ)) (by omega) (by omega))]
  rw [paddedSig_center_retained n S _ (n / 2 + (t : ℕ)) (by omega) (by omega)]
  rw [show n / 2 + (t : ℕ) - n / 2 = (t : ℕ) by omega]
  unfold extendW
  rw [dif_pos ht]
  rfl

theorem roundtrip_center_witness :
    Even 4 ∧ 0 < 2 ∧ 2 < 4 ∧ 2 ∣ 4 ∧ 4 / 2 < 4 ∧
    (((make_filterbanks 4 2 true).1.forward (fun _ _ _ => 1 : Wave 1 1 4)).bind
      (fun X => (make_filterbanks 4 2 true).2.forward X (some 4)) =
        some (fun _ _ _ => 1)) :=
  ⟨by decide, by decide, by decide, by decide, by decide,
    roundtrip_center 4 2 4 1 1 (by decide) (by decide) (by decide) (by decide)
      (by decide) (fun _ _ _ => 1)⟩

/-- C1 counterexample: with `n_hop = n_fft` (allowed by the claim, which
only fixes `center=true`, a shared window and `S` a multiple of `n_hop`)
the squared-window overlap envelope vanishes at a retained sample (the
periodic Hann window is zero at index 0 and frames do not overlap), so
`torch.istft` raises its positive-envelope error instead of reconstructing:
at `n_fft = n_hop = 2`, `S = 2`, decoding the encoding returns an error
(`none`), not the input. -/
theorem roundtrip_counterexample :
    ((make_filterbanks 2 2 true).1.forward (fun _ _ _ => 1 : Wave 1 1 2)).bind
      (fun X => (make_filterbanks 2 2 true).2.forward X (some 2)) = none := by
  show (TorchSTFT.forward ⟨hann_window 2, 2, 2, true⟩ (fun _ _ _ => 1 : Wave 1 1 2)).bind
      (fun X => TorchISTFT.forward ⟨hann_window 2, 2, 2, true, 44100⟩ X (some 2)) = none
  have hok : stftOK ⟨hann_window 2, 2, 2, true⟩ 2 :=
    ⟨by decide, by decide, hann_window_length 2, fun _ => by decide, by decide⟩
  rw [TorchSTFT.forward, if_pos hok, Option.some_bind]
  have hw0 : (hann_window 2).getD 0 0 = 0 := by
    rw [hann_window_getD 2 0 (by decide)]
    unfold hannFun
    norm_num
  have henv0 : olaEnv 2 2 (stftFrames 2 2 2 true)
      (fun j => (hann_window 2).getD j 0) 2 = 0 := by
    rw [show stftFrames 2 2 2 true = 2 from by decide]
    unfold olaEnv
    rw [Finset.sum_range_succ, Finset.sum_range_succ, Finset.sum_range_zero]
    rw [if_neg (by decide), if_pos (by decide)]
    show (0 : ℝ) + 0 + (hann_window 2).getD 0 0 ^ 2 = 0
    rw [hw0]
    norm_num
  have hnot : ¬ istftOK ⟨hann_window 2, 2, 2, true, 44100⟩ (stftBins 2)
      (stftFrames 2 2 2 true) (some 2) := by
    intro hk
    exact absurd henv0 (hk.2.2.2.2.2 2 (by decide) (by decide))
  rw [TorchISTFT.forward, if_neg hnot]
